import Mathlib

/-!
# Verification of the Book Translation pipeline core

A shallow embedding of the translation job pipeline of the repository
(chunking, orchestrator progress updates, cancellation, queue retry policy,
provider language-code mapping, offline-provider provisioning), with theorems
settling the specification's claims about it.

Strings are modelled as `List Char`; JavaScript machine behavior relevant to
the claims (regex sentence matching, `split(/\s+/)`, `toLowerCase`,
`Math.round`, object-literal lookup with `||` defaulting) is embedded by
explicit executable functions, each cross-referenced to its source location.
-/

namespace fileProcessing

/-- The terminal punctuation class `[.!?]` of the sentence regex in
`splitIntoChunks` (src/server/src/utils/fileProcessing.js:139). -/
def isTerm (c : Char) : Bool := c = '.' || c = '!' || c = '?'

/-- The whitespace class `\s` used by `splitLongSentence`'s
`sentence.split(/\s+/)` (fileProcessing.js:176), restricted to the ASCII
whitespace characters (the full JS class adds further Unicode space
characters, immaterial to the claims). -/
def isWsChar (c : Char) : Bool := c = ' ' || c = '\t' || c = '\n' || c = '\r'

/-- State machine implementing the global regex match
`text.match(/[^.!?]+[.!?]+/g)` of fileProcessing.js:139.  `cur` is the
span being built, `inTerm` records whether its tail is already inside the
terminal-punctuation run.  A maximal run of non-terminal characters followed
by a maximal run of terminal characters forms one match; leading terminal
characters and a trailing terminal-free segment match nothing. -/
def msGo (cur : List Char) (inTerm : Bool) : List Char → List (List Char)
  | [] => if inTerm then [cur] else []
  | c :: rest =>
    if isTerm c then
      if cur.isEmpty then msGo [] false rest
      else msGo (cur ++ [c]) true rest
    else
      if inTerm then cur :: msGo [c] false rest
      else msGo (cur ++ [c]) false rest

/-- `text.match(/[^.!?]+[.!?]+/g) || []` (fileProcessing.js:139). -/
def matchSentences (s : List Char) : List (List Char) := msGo [] false s

/-- State machine implementing JavaScript `sentence.split(/\s+/)`
(fileProcessing.js:176): segments between maximal whitespace runs, with an
empty leading segment when the string starts with whitespace and an empty
trailing segment when it ends with whitespace.  `inSep` records that the
previous character was part of a separator run already emitted. -/
def swGo (inSep : Bool) (cur : List Char) : List Char → List (List Char)
  | [] => [cur]
  | c :: rest =>
    if isWsChar c then
      if inSep then swGo true [] rest
      else cur :: swGo true [] rest
    else swGo false (cur ++ [c]) rest

/-- `sentence.split(/\s+/)` (fileProcessing.js:176). -/
def splitWs (s : List Char) : List (List Char) := swGo false [] s

/-- The word-packing loop of `splitLongSentence` (fileProcessing.js:180-194):
`currentChunk` accumulates words joined by single spaces while
`(currentChunk + ' ' + word).length <= chunkSize`; otherwise the nonempty
`currentChunk` is flushed and the word becomes the new `currentChunk`. -/
def slsGo (chunkSize : Nat) (currentChunk : List Char) :
    List (List Char) → List (List Char)
  | [] => if currentChunk.isEmpty then [] else [currentChunk]
  | w :: ws =>
    if currentChunk.length + 1 + w.length ≤ chunkSize then
      slsGo chunkSize
        (if currentChunk.isEmpty then w else currentChunk ++ ' ' :: w) ws
    else
      if currentChunk.isEmpty then slsGo chunkSize w ws
      else currentChunk :: slsGo chunkSize w ws

/-- `splitLongSentence(sentence, chunkSize)` (fileProcessing.js:175-196). -/
def splitLongSentence (sentence : List Char) (chunkSize : Nat) :
    List (List Char) :=
  slsGo chunkSize [] (splitWs sentence)

/-- The sentence-packing loop of `splitIntoChunks` (fileProcessing.js:143-164):
consecutive sentences are appended to `currentChunk` while
`(currentChunk + sentence).length <= chunkSize`; on overflow the nonempty
`currentChunk` is flushed, and a sentence longer than `chunkSize` is split by
`splitLongSentence`, all its sub-chunks but the last emitted immediately and
the last one seeding the next `currentChunk`
(`sentenceChunks[sentenceChunks.length - 1]`, rendered by `getLastD` — the
empty case never arises for sentences produced by the regex). -/
def sicGo (chunkSize : Nat) (currentChunk : List Char) :
    List (List Char) → List (List Char)
  | [] => if currentChunk.isEmpty then [] else [currentChunk]
  | s :: ss =>
    if (currentChunk ++ s).length ≤ chunkSize then
      sicGo chunkSize (currentChunk ++ s) ss
    else
      if currentChunk.isEmpty then
        if chunkSize < s.length then
          (splitLongSentence s chunkSize).dropLast ++
            sicGo chunkSize ((splitLongSentence s chunkSize).getLastD []) ss
        else sicGo chunkSize s ss
      else
        currentChunk ::
          (if chunkSize < s.length then
            (splitLongSentence s chunkSize).dropLast ++
              sicGo chunkSize ((splitLongSentence s chunkSize).getLastD []) ss
          else sicGo chunkSize s ss)

/-- `splitIntoChunks(text, chunkSize)` (fileProcessing.js:137-167). -/
def splitIntoChunks (text : List Char) (chunkSize : Nat) :
    List (List Char) :=
  sicGo chunkSize [] (matchSentences text)

end fileProcessing

namespace TranslationModel

/-- The `status` enumeration of the Translation schema
(src/unnamed/part_007:34-39; default `processing` as created by
`processTranslation`, translationService.js:43). -/
inductive Status
  | processing
  | completed
  | failed
  | canceled
  deriving DecidableEq

/-- The persisted Translation record, restricted to the fields the claims
speak about (src/unnamed/part_007:6-73).  File paths and error messages are
`Option (List Char)`, `none` when the schema field is unset. -/
structure Record where
  status : Status
  progress : Nat
  totalChunks : Nat
  processedChunks : Nat
  translatedFilePath : Option (List Char)
  errorMessage : Option (List Char)
  deriving DecidableEq

/-- The record as `Translation.create` persists it at the start of
`processTranslation` (translationService.js:36-44): status `processing`,
schema defaults `progress = 0`, `totalChunks = 0`, `processedChunks = 0`,
no output path and no error message. -/
def createdRecord : Record :=
  { status := .processing, progress := 0, totalChunks := 0
    processedChunks := 0, translatedFilePath := none, errorMessage := none }

/-- Exact rational rounding `round(100k/n) = floor((200k + n) / 2n)` for
positive `n` — the idealized reading of the spec's invariant
`progress == round(processedChunks / totalChunks * 100)`.  The program does
NOT compute this: it evaluates `Math.round(((i+1)/totalChunks)*100)` in IEEE
binary64 (`progressFloat` below), which differs from exact rounding on some
inputs (57 vs 58 at 23/40). -/
def jsRound100 (k n : Nat) : Nat := (200 * k + n) / (2 * n)

/-- Floor of the base-2 logarithm, fuel-driven structural recursion
(`log2go n n` computes `Nat.log2 n`; the fuel `n` always suffices). -/
def log2go : Nat → Nat → Nat
  | 0, _ => 0
  | fuel + 1, n => if 2 ≤ n then log2go fuel (n / 2) + 1 else 0

/-- `⌊log₂ n⌋` for `n ≥ 1` (0 at 0), kernel-reducible. -/
def nlog2 (n : Nat) : Nat := log2go n n

/-- Decides `2 ^ e ≤ a / b` for positive naturals by cross-multiplication. -/
def pow2le (b a : Nat) (e : Int) : Bool :=
  if 0 ≤ e then decide (b * 2 ^ e.toNat ≤ a)
  else decide (b ≤ a * 2 ^ (-e).toNat)

/-- The binade of `a / b` for `a, b ≥ 1`: the unique `e` with
`2 ^ e ≤ a / b < 2 ^ (e + 1)`. -/
def expOf (a b : Nat) : Int :=
  if pow2le b a ((nlog2 a : Int) - (nlog2 b : Int))
  then (nlog2 a : Int) - (nlog2 b : Int)
  else (nlog2 a : Int) - (nlog2 b : Int) - 1

/-- Round `N / D` to the nearest integer, ties to even — the IEEE 754
default rounding applied to a scaled significand. -/
def rne (N D : Nat) : Nat :=
  if 2 * (N % D) < D then N / D
  else if D < 2 * (N % D) then N / D + 1
  else if N / D % 2 = 0 then N / D else N / D + 1

/-- The IEEE binary64 (double) value nearest to `a / b`, as an exact dyadic
rational `(num, shift)` standing for `num / 2 ^ shift`: the quotient is
scaled into `[2^52, 2^53)` and its significand rounded to nearest, ties to
even.  Subnormals and overflow are outside the range this development uses
(quotients in `(0, 100]`). -/
def flQ (a b : Nat) : Nat × Nat :=
  if a = 0 then (0, 0)
  else if expOf a b ≤ 52 then
    (rne (a * 2 ^ ((52 : Int) - expOf a b).toNat) b,
      ((52 : Int) - expOf a b).toNat)
  else
    (rne a (b * 2 ^ (expOf a b - 52).toNat) * 2 ^ (expOf a b - 52).toNat, 0)

/-- Faithful model of the program's progress computation
`Math.round(((k) / (n)) * 100)` (translationService.js:81; likewise
`updateProgress`, part_007:91) in IEEE binary64: the correctly rounded
double division `k / n`, the correctly rounded double product with 100, then
`Math.round` per the ECMAScript spec — the nearest integer to the exact
value of the resulting double, ties away from zero upward.  Valid for
`k, n < 2^53`, where the integer operands convert to doubles exactly (a
chunk count always does). -/
def progressFloat (k n : Nat) : Nat :=
  (2 * (flQ (100 * (flQ k n).1) (2 ^ (flQ k n).2)).1 +
      2 ^ (flQ (100 * (flQ k n).1) (2 ^ (flQ k n).2)).2) /
    2 ^ ((flQ (100 * (flQ k n).1) (2 ^ (flQ k n).2)).2 + 1)

/-- One `findByIdAndUpdate` write issued by `processTranslation`: the set of
fields each call sets (translationService.js:60-63, 79-82, 98-108). -/
inductive DbUpdate
  | setCounts (totalChunks processedChunks : Nat)
  | setProgress (processedChunks progress : Nat)
  | setCompleted (filePath : List Char)
  deriving DecidableEq

/-- Applying one update to the stored record: `findByIdAndUpdate` writes only
the listed fields and leaves the rest unchanged. -/
def applyUpdate (r : Record) : DbUpdate → Record
  | .setCounts t k => { r with totalChunks := t, processedChunks := k }
  | .setProgress k p => { r with processedChunks := k, progress := p }
  | .setCompleted f =>
      { r with status := .completed, progress := 100,
               translatedFilePath := some f }

/-- `translationSchema.methods.updateProgress` (src/unnamed/part_007:88-95):
when `totalChunks > 0` it stores the new `processedChunks` and the rounded
percentage; otherwise it saves nothing. -/
def updateProgress (r : Record) (processedChunks : Nat) : Record :=
  if 0 < r.totalChunks then
    { r with processedChunks := processedChunks,
             progress := progressFloat processedChunks r.totalChunks }
  else r

/-- How a run of `processTranslation` ends: normally, or by the error thrown
from extraction, from `translateWithService` on chunk `i`, or from
`convertToTargetFormat` (translationService.js:53, 69, 92, 120-123 — the
catch block only logs and rethrows). -/
inductive RunOutcome
  | ok
  | extractFailed
  | translateFailed (i : Nat)
  | convertFailed
  deriving DecidableEq

/-- The per-chunk loop of `processTranslation` (translationService.js:67-83):
chunk `i` is sent to the provider (oracle `tr i`; `none` models a thrown
error); on success the write `{processedChunks: i+1, progress:
round((i+1)/totalChunks*100)}` is persisted and the loop continues.  Returns
the persisted writes and the index of the failing chunk, if any.  The loop
never consults the stored record, so a concurrent cancellation is invisible
to it. -/
def translateChunksLoop (tr : Nat → Option (List Char)) (n : Nat) :
    Nat → List (List Char) → List DbUpdate × Option Nat
  | _, [] => ([], none)
  | i, _ :: cs =>
    match tr i with
    | none => ([], some i)
    | some _ =>
      let rest := translateChunksLoop tr n (i + 1) cs
      (DbUpdate.setProgress (i + 1) (progressFloat (i + 1) n) :: rest.1,
        rest.2)

/-- The sequence of record-store writes of one `processTranslation` run
(translationService.js:33-124) together with its outcome, as a function of
the external effects: the extraction result (`none` models a thrown
extraction error), the per-chunk translation oracle, and whether
`convertToTargetFormat` succeeds.  `chunkSize` is the `splitIntoChunks`
argument (1000 at the call site, translationService.js:56). -/
def processTranslationRun (chunkSize : Nat) (extractRes : Option (List Char))
    (tr : Nat → Option (List Char)) (convertOk : Bool)
    (outPath : List Char) : List DbUpdate × RunOutcome :=
  match extractRes with
  | none => ([], .extractFailed)
  | some text =>
    let chunks := fileProcessing.splitIntoChunks text chunkSize
    let n := chunks.length
    let loop := translateChunksLoop tr n 0 chunks
    match loop.2 with
    | some i => (DbUpdate.setCounts n 0 :: loop.1, .translateFailed i)
    | none =>
      if convertOk then
        (DbUpdate.setCounts n 0 ::
          (loop.1 ++ [DbUpdate.setCompleted outPath]), .ok)
      else (DbUpdate.setCounts n 0 :: loop.1, .convertFailed)

/-- The stored record after each persisted write of a run, starting from the
created record: the sequence of states an external reader can observe. -/
def processTranslationStates (chunkSize : Nat)
    (extractRes : Option (List Char)) (tr : Nat → Option (List Char))
    (convertOk : Bool) (outPath : List Char) : List Record :=
  List.scanl applyUpdate createdRecord
    (processTranslationRun chunkSize extractRes tr convertOk outPath).1

/-- An operation on the stored record: a write of the running orchestrator,
or a cancellation request through the `cancelTranslation` endpoint. -/
inductive StoreOp
  | update (u : DbUpdate)
  | cancelRequest
  deriving DecidableEq

/-- Applying one operation.  `cancelTranslation` (src/unnamed/part_008:199-236)
refuses when the record is already `completed` or `canceled` and otherwise
saves `status = 'canceled'`, touching no other field. -/
def applyOp (r : Record) : StoreOp → Record
  | .update u => applyUpdate r u
  | .cancelRequest =>
      if r.status = .completed ∨ r.status = .canceled then r
      else { r with status := .canceled }

end TranslationModel

namespace queueService

/-- The `defaultJobOptions` of the translation queue
(src/server/src/services/queueService.js:22-33): 3 attempts, exponential
backoff with base delay 1000 ms, remove on complete, keep on fail. -/
structure JobOptions where
  attempts : Nat
  backoffDelay : Nat
  removeOnComplete : Bool
  removeOnFail : Bool
  deriving DecidableEq

/-- queueService.js:24-32. -/
def defaultJobOptions : JobOptions :=
  { attempts := 3, backoffDelay := 1000
    removeOnComplete := true, removeOnFail := false }

/-- The spec's §7 error taxonomy for a job run, with its permanent/retryable
classification.  The source throws untyped `Error` objects; the classes exist
only in the spec, and the queue configuration never inspects them. -/
inductive QErr
  | unsupportedFormat
  | extractionFailed
  | providerAuthFailed
  | providerQuotaExceeded
  | providerRateLimited
  | providerUnavailable
  | providerBadRequest
  | reconstructionFailed
  deriving DecidableEq

/-- The spec's §7 classification: which error classes are permanent
(non-retryable). -/
def isPermanent : QErr → Bool
  | .unsupportedFormat => true
  | .extractionFailed => true
  | .providerAuthFailed => true
  | .providerQuotaExceeded => false
  | .providerRateLimited => false
  | .providerUnavailable => false
  | .providerBadRequest => true
  | .reconstructionFailed => true

/-- What one queue execution of a job produced: how many processor attempts
ran, the backoff delays waited between them, and the final result. -/
structure RetryTrace (E A : Type) where
  attemptsMade : Nat
  delays : List Nat
  result : Except E A

/-- Modelled from the spec: the Job Queue's execution loop for one job
(§4.5 — "a job whose Orchestrator run throws is retried up to a fixed
attempt count with exponential backoff between attempts; after the final
attempt it is marked `failed`").  The loop itself lives in the Bull library,
outside the repository; the repository contributes the processor that
rethrows every error (queueService.js:49-64) and the options of
`defaultJobOptions`.  `f i` is attempt `i`'s result; `remaining` counts the
retries still allowed; a failed attempt with retries left waits the
exponential delay `d * 2 ^ i` and runs again, whatever the error was. -/
def retryGo {E A : Type} (f : Nat → Except E A) (d : Nat) (i : Nat) :
    Nat → RetryTrace E A
  | 0 => { attemptsMade := i + 1, delays := [], result := f i }
  | remaining + 1 =>
    match f i with
    | .ok a => { attemptsMade := i + 1, delays := [], result := .ok a }
    | .error _ =>
      let t := retryGo f d (i + 1) remaining
      { t with delays := d * 2 ^ i :: t.delays }

/-- Modelled from the spec: running one job under the queue's options
(§4.5); with `defaultJobOptions` this is up to 3 attempts with delays
1000, 2000 ms. -/
def runWithRetries {E A : Type} (opts : JobOptions)
    (f : Nat → Except E A) : RetryTrace E A :=
  retryGo f opts.backoffDelay 0 (opts.attempts - 1)

end queueService

/-- JavaScript object-literal lookup `map[key]` on a table of string pairs:
the first binding of the key, if any (the adapters' tables bind every key
once). -/
def jsLookup : List (String × String) → String → Option String
  | [], _ => none
  | (k, v) :: rest, key => if key = k then some v else jsLookup rest key

/-- JavaScript `x || dflt` applied to a lookup result: `undefined` (here
`none`) and the empty string are falsy and fall through to the default. -/
def jsOr (v : Option String) (dflt : String) : String :=
  match v with
  | some s => if s = "" then dflt else s
  | none => dflt

/-- ASCII case folding of JavaScript `toLowerCase` (the inputs of interest,
language codes, are ASCII). -/
def jsToLowerChar (c : Char) : Char :=
  if 'A' ≤ c ∧ c ≤ 'Z' then Char.ofNat (c.toNat + 32) else c

/-- ASCII case folding of JavaScript `toUpperCase`. -/
def jsToUpperChar (c : Char) : Char :=
  if 'a' ≤ c ∧ c ≤ 'z' then Char.ofNat (c.toNat - 32) else c

/-- `languageCode.toLowerCase()`. -/
def jsToLower (s : String) : String := ⟨s.data.map jsToLowerChar⟩

/-- `languageCode.toUpperCase()`. -/
def jsToUpper (s : String) : String := ⟨s.data.map jsToUpperChar⟩

namespace microsoftService

/-- The `languageMap` of `microsoftService.mapLanguageCode`
(src/server/src/services/microsoft.js:99-110). -/
def languageMap : List (String × String) :=
  [("zh", "zh-Hans"), ("zh-CN", "zh-Hans"), ("zh-TW", "zh-Hant"),
   ("sr-Latn", "sr-Latn"), ("sr-Cyrl", "sr-Cyrl"), ("no", "nb"),
   ("pt", "pt"), ("pt-BR", "pt-br"), ("pt-PT", "pt-pt"), ("sr", "sr-Cyrl")]

/-- `microsoftService.mapLanguageCode` (microsoft.js:96-113):
`languageMap[languageCode] || languageCode`. -/
def mapLanguageCode (languageCode : String) : String :=
  jsOr (jsLookup languageMap languageCode) languageCode

end microsoftService

namespace deeplService

/-- The `languageMap` of `deeplService.mapLanguageCode`
(src/unnamed/part_006:72-84). -/
def languageMap : List (String × String) :=
  [("en", "EN"), ("es", "ES"), ("fr", "FR"), ("de", "DE"), ("it", "IT"),
   ("pt", "PT"), ("ru", "RU"), ("zh", "ZH"), ("ja", "JA"), ("ko", "KO")]

/-- `deeplService.mapLanguageCode` (src/unnamed/part_006:71-87):
`languageMap[languageCode] || languageCode.toUpperCase()`. -/
def mapLanguageCode (languageCode : String) : String :=
  jsOr (jsLookup languageMap languageCode) (jsToUpper languageCode)

end deeplService

namespace amazonService

/-- The `languageMap` of `amazonService.mapLanguageCode`
(src/unnamed/part_005:70-100).  Note the mixed-case keys `zh-CN` and
`zh-TW`. -/
def languageMap : List (String × String) :=
  [("zh", "zh"), ("zh-CN", "zh"), ("zh-TW", "zh-TW"), ("ja", "ja"),
   ("ko", "ko"), ("ar", "ar"), ("cs", "cs"), ("da", "da"), ("nl", "nl"),
   ("en", "en"), ("fi", "fi"), ("fr", "fr"), ("de", "de"), ("he", "he"),
   ("hi", "hi"), ("id", "id"), ("it", "it"), ("ms", "ms"), ("no", "no"),
   ("fa", "fa"), ("pl", "pl"), ("pt", "pt"), ("ro", "ro"), ("ru", "ru"),
   ("es", "es"), ("sv", "sv"), ("tr", "tr"), ("uk", "uk"), ("vi", "vi")]

/-- `amazonService.mapLanguageCode` (src/unnamed/part_005:67-103):
`languageMap[languageCode.toLowerCase()] || languageCode.toLowerCase()` —
the lookup key is the lowercased input. -/
def mapLanguageCode (languageCode : String) : String :=
  jsOr (jsLookup languageMap (jsToLower languageCode))
    (jsToLower languageCode)

end amazonService

namespace argosService

/-- The externally visible actions of one `argosService.translate` call
(src/unnamed/part_004:22-67): the availability check
(`isLanguagePairAvailable`), a provisioning attempt (`downloadLanguagePair`),
and a run of the `argos-translate` process. -/
inductive Step
  | checkAvailability
  | downloadPair
  | runTranslate
  deriving DecidableEq

/-- How an `argosService.translate` call fails: the provisioning attempt
threw (its error propagates out of `translate`, part_004:32, 56-65), or the
translation process itself threw. -/
inductive ArgosErr
  | downloadFailed
  | execFailed
  deriving DecidableEq

/-- The result of the `argos-translate` process run: `some` translated text,
or `none` for a thrown error. -/
def execOutcome : Option (List Char) → Except ArgosErr (List Char)
  | some t => .ok t
  | none => .error .execFailed

/-- `argosService.translate` (src/unnamed/part_004:22-67) as the sequence of
actions it performs and its result, as a function of the external effects:
whether `isLanguagePairAvailable` reports the pair available, whether
`downloadLanguagePair` succeeds, and the translation process result.  An
unavailable pair triggers exactly one `downloadLanguagePair` before the
single translation attempt; a download failure propagates with no
translation attempt. -/
def translate (pairAvailable downloadOk : Bool)
    (execResult : Option (List Char)) :
    List Step × Except ArgosErr (List Char) :=
  if pairAvailable then
    ([.checkAvailability, .runTranslate], execOutcome execResult)
  else if downloadOk then
    ([.checkAvailability, .downloadPair, .runTranslate],
      execOutcome execResult)
  else
    ([.checkAvailability, .downloadPair], .error .downloadFailed)

end argosService

/-! ## Chunker lemmas -/

namespace fileProcessing

theorem msGo_all_nonterm (s : List Char) (h : ∀ c ∈ s, isTerm c = false) :
    ∀ cur, msGo cur false s = [] := by
  induction s with
  | nil => intro cur; rfl
  | cons c rest ih =>
    intro cur
    have hc : isTerm c = false := h c (List.mem_cons_self ..)
    have ih' := ih (fun x hx => h x (List.mem_cons_of_mem _ hx))
    simp [msGo, hc, ih']

theorem msGo_nonterm_tail (u : List Char) (hu : ∀ c ∈ u, isTerm c = false)
    (cur : List Char) (inTerm : Bool) :
    msGo cur inTerm u = msGo cur inTerm [] := by
  cases u with
  | nil => rfl
  | cons c rest =>
    have hc : isTerm c = false := hu c (List.mem_cons_self ..)
    have hrest : ∀ x ∈ rest, isTerm x = false :=
      fun x hx => hu x (List.mem_cons_of_mem _ hx)
    cases inTerm with
    | true => simp [msGo, hc, msGo_all_nonterm rest hrest]
    | false => simp [msGo, hc, msGo_all_nonterm rest hrest]

theorem msGo_append_nonterm (u : List Char) (hu : ∀ c ∈ u, isTerm c = false) :
    ∀ (s cur : List Char) (inTerm : Bool),
      msGo cur inTerm (s ++ u) = msGo cur inTerm s := by
  intro s
  induction s with
  | nil => intro cur inTerm; simpa using msGo_nonterm_tail u hu cur inTerm
  | cons c rest ih =>
    intro cur inTerm
    simp only [List.cons_append, msGo]
    by_cases h1 : isTerm c
    · by_cases h2 : cur.isEmpty <;> simp [h1, h2, ih]
    · cases inTerm <;> simp [h1, ih]

end fileProcessing

namespace fileProcessing

theorem infix_shift {w l : List Char} (x : List Char) (h : w <:+: l) :
    w <:+: x ++ l := by
  obtain ⟨p, q, hp⟩ := h
  exact ⟨x ++ p, q, by rw [← hp]; simp⟩

theorem infix_shift_cons {w rest : List Char} (cur : List Char) (c : Char)
    (h : w <:+: rest) : w <:+: cur ++ c :: rest := by
  have := infix_shift (cur ++ [c]) h
  simpa using this

theorem swGo_mem_noWs :
    ∀ (s : List Char) (inSep : Bool) (cur : List Char),
      (∀ c ∈ cur, isWsChar c = false) →
      ∀ w ∈ swGo inSep cur s, ∀ c ∈ w, isWsChar c = false := by
  intro s
  induction s with
  | nil =>
    intro inSep cur hcur w hw
    simp only [swGo, List.mem_singleton] at hw
    exact hw ▸ hcur
  | cons c rest ih =>
    intro inSep cur hcur w hw
    simp only [swGo] at hw
    by_cases h1 : isWsChar c
    · rw [if_pos h1] at hw
      cases inSep with
      | true => exact ih true [] (by simp) w hw
      | false =>
        simp only [Bool.false_eq_true, if_false, List.mem_cons] at hw
        rcases hw with hw | hw
        · exact hw ▸ hcur
        · exact ih true [] (by simp) w hw
    · rw [if_neg h1] at hw
      refine ih false (cur ++ [c]) ?_ w hw
      intro x hx
      rcases List.mem_append.1 hx with hx | hx
      · exact hcur x hx
      · simp only [List.mem_singleton] at hx
        subst hx
        simpa using h1

theorem swGo_mem_sub :
    ∀ (s : List Char) (inSep : Bool) (cur : List Char),
      ∀ w ∈ swGo inSep cur s, w <:+: cur ++ s := by
  intro s
  induction s with
  | nil =>
    intro inSep cur w hw
    simp only [swGo, List.mem_singleton] at hw
    exact hw ▸ ⟨[], [], by simp⟩
  | cons c rest ih =>
    intro inSep cur w hw
    simp only [swGo] at hw
    by_cases h1 : isWsChar c
    · rw [if_pos h1] at hw
      cases inSep with
      | true =>
        have := ih true [] w hw
        exact infix_shift_cons cur c (by simpa using this)
      | false =>
        simp only [Bool.false_eq_true, if_false, List.mem_cons] at hw
        rcases hw with hw | hw
        · exact hw ▸ ⟨[], c :: rest, rfl⟩
        · have := ih true [] w hw
          exact infix_shift_cons cur c (by simpa using this)
    · rw [if_neg h1] at hw
      have := ih false (cur ++ [c]) w hw
      simpa using this

theorem msGo_mem_sub :
    ∀ (s : List Char) (cur : List Char) (inTerm : Bool),
      ∀ x ∈ msGo cur inTerm s, x <:+: cur ++ s := by
  intro s
  induction s with
  | nil =>
    intro cur inTerm x hx
    cases inTerm with
    | true =>
      simp only [msGo, if_pos, List.mem_singleton] at hx
      exact hx ▸ ⟨[], [], by simp⟩
    | false => simp [msGo] at hx
  | cons c rest ih =>
    intro cur inTerm x hx
    simp only [msGo] at hx
    by_cases h1 : isTerm c
    · rw [if_pos h1] at hx
      by_cases h2 : cur.isEmpty
      · rw [if_pos h2] at hx
        have := ih [] false x hx
        exact infix_shift_cons cur c (by simpa using this)
      · rw [if_neg h2] at hx
        have := ih (cur ++ [c]) true x hx
        simpa using this
    · rw [if_neg h1] at hx
      cases inTerm with
      | true =>
        simp only [if_pos, List.mem_cons] at hx
        rcases hx with hx | hx
        · exact hx ▸ ⟨[], c :: rest, rfl⟩
        · have := ih [c] false x hx
          exact infix_shift cur (by simpa using this)
      | false =>
        simp only [Bool.false_eq_true, if_false] at hx
        have := ih (cur ++ [c]) false x hx
        simpa using this

theorem matchSentences_mem_sub (s : List Char) :
    ∀ x ∈ matchSentences s, x <:+: s := by
  intro x hx
  simpa using msGo_mem_sub s [] false x hx

end fileProcessing

namespace fileProcessing

theorem slsGo_mem_bound (L : Nat) (P : List Char → Prop) :
    ∀ (ws : List (List Char)) (cur : List Char),
      cur.length ≤ L ∨ P cur → (∀ w ∈ ws, P w) →
      ∀ c ∈ slsGo L cur ws, c.length ≤ L ∨ P c := by
  intro ws
  induction ws with
  | nil =>
    intro cur hcur _ c hc
    simp only [slsGo] at hc
    by_cases h : cur.isEmpty
    · simp [h] at hc
    · rw [if_neg h] at hc
      simp only [List.mem_singleton] at hc
      exact hc ▸ hcur
  | cons w ws' ih =>
    intro cur hcur hws c hc
    have hw : P w := hws w (List.mem_cons_self ..)
    have hws' : ∀ x ∈ ws', P x := fun x hx => hws x (List.mem_cons_of_mem _ hx)
    simp only [slsGo] at hc
    by_cases h1 : cur.length + 1 + w.length ≤ L
    · rw [if_pos h1] at hc
      refine ih _ (Or.inl ?_) hws' c hc
      by_cases h2 : cur.isEmpty
      · have : cur.length = 0 := by simpa [List.isEmpty_iff_length_eq_zero] using h2
        simp only [h2, if_pos]
        omega
      · simp only [h2, Bool.false_eq_true, if_false]
        simp only [List.length_append, List.length_cons]
        omega
    · rw [if_neg h1] at hc
      by_cases h2 : cur.isEmpty
      · rw [if_pos h2] at hc
        exact ih w (Or.inr hw) hws' c hc
      · rw [if_neg h2] at hc
        simp only [List.mem_cons] at hc
        rcases hc with hc | hc
        · exact hc ▸ hcur
        · exact ih w (Or.inr hw) hws' c hc

theorem sicGo_mem_bound (L : Nat) (P : List Char → Prop) :
    ∀ (ss : List (List Char)) (cur : List Char),
      cur.length ≤ L ∨ P cur → (∀ s ∈ ss, ∀ w ∈ splitWs s, P w) →
      ∀ c ∈ sicGo L cur ss, c.length ≤ L ∨ P c := by
  intro ss
  induction ss with
  | nil =>
    intro cur hcur _ c hc
    simp only [sicGo] at hc
    by_cases h : cur.isEmpty
    · simp [h] at hc
    · rw [if_neg h] at hc
      simp only [List.mem_singleton] at hc
      exact hc ▸ hcur
  | cons s ss' ih =>
    intro cur hcur hss c hc
    have hs : ∀ w ∈ splitWs s, P w := hss s (List.mem_cons_self ..)
    have hss' : ∀ x ∈ ss', ∀ w ∈ splitWs x, P w :=
      fun x hx => hss x (List.mem_cons_of_mem _ hx)
    have hsls : ∀ c ∈ splitLongSentence s L, c.length ≤ L ∨ P c :=
      slsGo_mem_bound L P (splitWs s) [] (Or.inl (by simp)) hs
    have hseed : ((splitLongSentence s L).getLastD []).length ≤ L ∨
        P ((splitLongSentence s L).getLastD []) := by
      have hmem := List.getLastD_mem_cons (splitLongSentence s L) ([] : List Char)
      rcases (List.mem_cons.1 hmem) with h | h
      · rw [h]; exact Or.inl (by simp)
      · exact hsls _ h
    simp only [sicGo] at hc
    by_cases h1 : (cur ++ s).length ≤ L
    · rw [if_pos h1] at hc
      exact ih (cur ++ s) (Or.inl h1) hss' c hc
    · rw [if_neg h1] at hc
      by_cases h3 : L < s.length
      · have hbranch :
          c ∈ (splitLongSentence s L).dropLast ++
              sicGo L ((splitLongSentence s L).getLastD []) ss' →
          c.length ≤ L ∨ P c := by
          intro hmem
          rcases List.mem_append.1 hmem with hmem | hmem
          · exact hsls c (List.mem_of_mem_dropLast hmem)
          · exact ih _ hseed hss' c hmem
        by_cases h2 : cur.isEmpty
        · rw [if_pos h2, if_pos h3] at hc
          exact hbranch hc
        · rw [if_neg h2, if_pos h3] at hc
          simp only [List.mem_cons] at hc
          rcases hc with hc | hc
          · exact hc ▸ hcur
          · exact hbranch hc
      · have hslen : s.length ≤ L := by omega
        by_cases h2 : cur.isEmpty
        · rw [if_pos h2, if_neg h3] at hc
          exact ih s (Or.inl hslen) hss' c hc
        · rw [if_neg h2, if_neg h3] at hc
          simp only [List.mem_cons] at hc
          rcases hc with hc | hc
          · exact hc ▸ hcur
          · exact ih s (Or.inl hslen) hss' c hc

end fileProcessing

/-! ## Claims about the Chunker -/

namespace fileProcessing

/-- C1: the claim that concatenating `splitIntoChunks`' output reproduces the
input (up to whitespace normalization, nothing silently dropped) fails on the
code: an input with no terminal punctuation yields no chunks at all, and the
segment after the last terminal punctuation is dropped.  Evaluation of the
embedding at the failing inputs. -/
theorem chunker_drops_text_without_terminal :
    splitIntoChunks "Hello world".toList 1000 = [] ∧
    "Hello world".toList ≠ [] ∧
    splitIntoChunks "It works. Mostly".toList 1000 = ["It works.".toList] := by
  refine ⟨by decide, by decide, by decide⟩

/-- C2: every chunk `splitIntoChunks` produces either fits the limit `L` or is
a single whitespace-free token of the input, passed through unchanged (a
contiguous substring of the input containing no whitespace). -/
theorem splitIntoChunks_chunk_length_bound (text : List Char) (L : Nat) :
    ∀ c ∈ splitIntoChunks text L,
      c.length ≤ L ∨ ((∀ ch ∈ c, isWsChar ch = false) ∧ c <:+: text) := by
  refine sicGo_mem_bound L _ (matchSentences text) [] (Or.inl (by simp)) ?_
  intro s hs w hw
  refine ⟨swGo_mem_noWs s false [] (by simp) w hw, ?_⟩
  have h1 : w <:+: s := by simpa using swGo_mem_sub s false [] w hw
  exact h1.trans (matchSentences_mem_sub text s hs)

/-- C2 witness: at `text = "Aa bb."` and `L = 2`, the oversized chunk `"bb."`
is a whitespace-free substring of the input. -/
theorem splitIntoChunks_chunk_length_bound_witness :
    (['b', 'b', '.'] : List Char).length ≤ 2 ∨
      ((∀ ch ∈ (['b', 'b', '.'] : List Char), isWsChar ch = false) ∧
        ['b', 'b', '.'] <:+: "Aa bb.".toList) :=
  splitIntoChunks_chunk_length_bound "Aa bb.".toList 2 ['b', 'b', '.']
    (by decide)

/-- C10: `splitIntoChunks` never emits anything of the input segment after
the last terminal punctuation character: appending a terminal-free suffix to
any text leaves the chunk list unchanged, and a text containing no `.`, `!`
or `?` at all yields the empty chunk list for every chunk size. -/
theorem splitIntoChunks_ignores_unterminated_tail (text u : List Char)
    (L : Nat) (hu : ∀ c ∈ u, isTerm c = false) :
    splitIntoChunks (text ++ u) L = splitIntoChunks text L ∧
    ((∀ c ∈ text, isTerm c = false) → splitIntoChunks text L = []) := by
  constructor
  · unfold splitIntoChunks matchSentences
    rw [msGo_append_nonterm u hu]
  · intro ht
    unfold splitIntoChunks matchSentences
    rw [msGo_all_nonterm text ht]
    rfl

/-- C10 witness at `text = "Ok."`, suffix `" no end"`, `L = 8`. -/
theorem splitIntoChunks_ignores_unterminated_tail_witness :
    splitIntoChunks ("Ok.".toList ++ " no end".toList) 8 =
      splitIntoChunks "Ok.".toList 8 ∧
    ((∀ c ∈ "Ok.".toList, isTerm c = false) →
      splitIntoChunks "Ok.".toList 8 = []) :=
  splitIntoChunks_ignores_unterminated_tail "Ok.".toList " no end".toList 8
    (by decide)

end fileProcessing

/-! ## Orchestrator lemmas -/

namespace TranslationModel

theorem rne_mul_left (n k : Nat) (h : 0 < n) : rne (n * k) n = k := by
  unfold rne
  rw [Nat.mul_div_cancel_left _ h, Nat.mul_mod_right]
  simp [h]

theorem expOf_self (n : Nat) (h : 0 < n) : expOf n n = 0 := by
  unfold expOf pow2le
  simp

theorem flQ_self (n : Nat) (h : 0 < n) : flQ n n = (2 ^ 52, 52) := by
  unfold flQ
  rw [if_neg (by omega : ¬ n = 0), expOf_self n h]
  norm_num
  refine ⟨?_, rfl⟩
  show rne (n * 2 ^ 52) n = 2 ^ 52
  exact rne_mul_left n (2 ^ 52) h

theorem flQ_zero (n : Nat) : flQ 0 n = (0, 0) := by
  unfold flQ
  simp

theorem progressFloat_zero (n : Nat) : progressFloat 0 n = 0 := by
  unfold progressFloat
  rw [flQ_zero]
  decide

theorem progressFloat_self (n : Nat) (h : 0 < n) : progressFloat n n = 100 := by
  unfold progressFloat
  rw [flQ_self n h]
  decide

theorem head?_scanl {α β : Type} (f : β → α → β) (b : β) (l : List α) :
    (List.scanl f b l).head? = some b := by
  cases l <;> simp

theorem scanl_concat {α β : Type} (f : β → α → β) :
    ∀ (l : List α) (u : α) (b : β),
      List.scanl f b (l ++ [u]) =
        List.scanl f b l ++ [f (List.foldl f b l) u] := by
  intro l
  induction l with
  | nil => intro u b; simp
  | cons a l ih => intro u b; simp [ih]

theorem getLast?_cons_scanl {α β : Type} (f : β → α → β) (l : List α)
    (b : β) (c : β) :
    (c :: List.scanl f b l).getLast? = (List.scanl f b l).getLast? := by
  cases l with
  | nil => simp
  | cons a l' =>
    rw [List.scanl_cons]
    exact List.getLast?_cons_cons ..

theorem getLast?_scanl {α β : Type} (f : β → α → β) :
    ∀ (l : List α) (b : β),
      (List.scanl f b l).getLast? = some (List.foldl f b l) := by
  intro l
  induction l with
  | nil => intro b; simp
  | cons a l ih =>
    intro b
    rw [List.scanl_cons, List.singleton_append, getLast?_cons_scanl, ih]
    simp

theorem translateChunksLoop_invariants (tr : Nat → Option (List Char))
    (n : Nat) :
    ∀ (cs : List (List Char)) (i : Nat) (r : Record),
      r.status = Status.processing → r.translatedFilePath = none →
      r.errorMessage = none → r.totalChunks = n → r.processedChunks = i →
      (0 < n → r.progress = progressFloat i n) → i + cs.length ≤ n →
      (∀ x ∈ List.scanl applyUpdate r (translateChunksLoop tr n i cs).1,
          x.status = Status.processing ∧ x.translatedFilePath = none ∧
          x.errorMessage = none ∧ x.totalChunks = n ∧
          x.processedChunks ≤ n ∧
          (0 < n → x.progress = progressFloat x.processedChunks n)) ∧
      List.Chain' (fun a b => a.processedChunks ≤ b.processedChunks)
        (List.scanl applyUpdate r (translateChunksLoop tr n i cs).1) ∧
      ((translateChunksLoop tr n i cs).2 = none →
        (List.foldl applyUpdate r (translateChunksLoop tr n i cs).1).status
            = r.status ∧
        (List.foldl applyUpdate r
            (translateChunksLoop tr n i cs).1).translatedFilePath
            = r.translatedFilePath ∧
        (List.foldl applyUpdate r
            (translateChunksLoop tr n i cs).1).errorMessage
            = r.errorMessage ∧
        (List.foldl applyUpdate r
            (translateChunksLoop tr n i cs).1).totalChunks = n ∧
        (List.foldl applyUpdate r
            (translateChunksLoop tr n i cs).1).processedChunks
            = i + cs.length ∧
        (0 < n → (List.foldl applyUpdate r
            (translateChunksLoop tr n i cs).1).progress
            = progressFloat (i + cs.length) n)) := by
  intro cs
  induction cs with
  | nil =>
    intro i r hst hpath herr htot hproc hprog hlen
    subst hproc
    refine ⟨?_, ?_, ?_⟩
    · intro x hx
      simp only [translateChunksLoop, List.scanl, List.mem_singleton] at hx
      subst hx
      exact ⟨hst, hpath, herr, htot, by omega, hprog⟩
    · simp [translateChunksLoop]
    · intro _
      exact ⟨rfl, rfl, rfl, htot, rfl, hprog⟩
  | cons c cs' ih =>
    intro i r hst hpath herr htot hproc hprog hlen
    subst hproc
    cases htr : tr r.processedChunks with
    | none =>
      refine ⟨?_, ?_, ?_⟩
      · intro x hx
        simp only [translateChunksLoop, htr, List.scanl, List.mem_singleton]
          at hx
        subst hx
        exact ⟨hst, hpath, herr, htot, by omega, hprog⟩
      · simp [translateChunksLoop, htr]
      · intro habs
        simp [translateChunksLoop, htr] at habs
    | some t =>
      set k := r.processedChunks with hk
      have hr' :
          applyUpdate r (DbUpdate.setProgress (k + 1) (progressFloat (k + 1) n)) =
            { r with processedChunks := k + 1,
                     progress := progressFloat (k + 1) n } := rfl
      have hlen' : (k + 1) + cs'.length ≤ n := by
        simp only [List.length_cons] at hlen
        omega
      have ihr := ih (k + 1)
        { r with processedChunks := k + 1, progress := progressFloat (k + 1) n }
        hst hpath herr htot rfl (fun _ => rfl) hlen'
      refine ⟨?_, ?_, ?_⟩
      · intro x hx
        simp only [translateChunksLoop, htr, List.scanl, List.mem_cons] at hx
        rcases hx with hx | hx
        · subst hx
          exact ⟨hst, hpath, herr, htot, by omega, hprog⟩
        · exact ihr.1 x (by simpa [hr'] using hx)
      · simp only [translateChunksLoop, htr, List.scanl]
        rw [List.chain'_cons']
        constructor
        · intro y hy
          rw [hr', head?_scanl] at hy
          simp only [Option.mem_def, Option.some.injEq] at hy
          subst hy
          simp
        · simpa [hr'] using ihr.2.1
      · intro hnone
        have hnone' : (translateChunksLoop tr n (k + 1) cs').2 = none := by
          simpa [translateChunksLoop, htr] using hnone
        have h2 := ihr.2.2 hnone'
        simp only [translateChunksLoop, htr, List.foldl_cons, hr',
          List.length_cons]
        refine ⟨h2.1, h2.2.1, h2.2.2.1, h2.2.2.2.1, ?_, ?_⟩
        · rw [h2.2.2.2.2.1]
          omega
        · intro hn
          rw [h2.2.2.2.2.2 hn]
          congr 1
          omega

end TranslationModel

namespace TranslationModel

theorem processTranslationRun_updates (chunkSize : Nat) (text : List Char)
    (tr : Nat → Option (List Char)) (convertOk : Bool) (outPath : List Char) :
    (processTranslationRun chunkSize (some text) tr convertOk outPath).1 =
      DbUpdate.setCounts
          (fileProcessing.splitIntoChunks text chunkSize).length 0 ::
        ((translateChunksLoop tr
            (fileProcessing.splitIntoChunks text chunkSize).length 0
            (fileProcessing.splitIntoChunks text chunkSize)).1 ++
          (if (translateChunksLoop tr
                (fileProcessing.splitIntoChunks text chunkSize).length 0
                (fileProcessing.splitIntoChunks text chunkSize)).2 = none ∧
              convertOk = true
           then [DbUpdate.setCompleted outPath] else [])) := by
  unfold processTranslationRun
  cases h : (translateChunksLoop tr
      (fileProcessing.splitIntoChunks text chunkSize).length 0
      (fileProcessing.splitIntoChunks text chunkSize)).2 with
  | none => cases convertOk <;> simp [h]
  | some i => cases convertOk <;> simp [h]

/-- C3 counterexample: the persisted progress is the IEEE binary64
evaluation `Math.round(((i+1)/totalChunks)*100)`, which deviates from the
claim's exact rounding: at `processedChunks = 23, totalChunks = 40` the
double value of `(23/40)*100` is just below 57.5, so the program stores 57
where exact rounding gives 58.  A concrete run of a 40-chunk job (the text
`"A."` repeated 40 times at chunk size 2, every provider call succeeding)
persists a state with `progress = 57 ≠ jsRound100 23 40`. -/
theorem progress_deviates_from_exact_rounding :
    progressFloat 23 40 = 57 ∧
    jsRound100 23 40 = 58 ∧
    { status := Status.processing, progress := 57, totalChunks := 40,
      processedChunks := 23, translatedFilePath := none,
      errorMessage := none } ∈
      processTranslationStates 2
        (some "A.A.A.A.A.A.A.A.A.A.A.A.A.A.A.A.A.A.A.A.A.A.A.A.A.A.A.A.A.A.A.A.A.A.A.A.A.A.A.A.".toList)
        (fun _ => some ['T']) true "p".toList ∧
    ¬(57 = jsRound100 23 40) := by
  refine ⟨by decide, by decide, by decide, by decide⟩

/-- C3 amended: over the sequence of record states persisted by one
`processTranslation` run — for every extraction result, every per-chunk
provider behavior and every reconstruction outcome — each state with
`totalChunks > 0` satisfies `progress = Math.round(processedChunks /
totalChunks * 100)` as the program computes it, in IEEE binary64 arithmetic
(`progressFloat`, which can differ by one from exact rational rounding);
`processedChunks` never exceeds `totalChunks` and never decreases
from one persisted state to the next, the first observable state is the
created record with `progress = 0`, and the schema's `updateProgress` method
maintains the same rounding invariant. -/
theorem processTranslation_progress_invariants (chunkSize : Nat)
    (extractRes : Option (List Char)) (tr : Nat → Option (List Char))
    (convertOk : Bool) (outPath : List Char) :
    (∀ r ∈ processTranslationStates chunkSize extractRes tr convertOk outPath,
        (0 < r.totalChunks →
          r.progress = progressFloat r.processedChunks r.totalChunks) ∧
        r.processedChunks ≤ r.totalChunks) ∧
    List.Chain' (fun a b => a.processedChunks ≤ b.processedChunks)
      (processTranslationStates chunkSize extractRes tr convertOk outPath) ∧
    (processTranslationStates chunkSize extractRes tr convertOk
        outPath).head? = some createdRecord ∧
    createdRecord.progress = 0 ∧
    (∀ (r : Record) (k : Nat), 0 < r.totalChunks →
      (updateProgress r k).progress = progressFloat k r.totalChunks ∧
      (updateProgress r k).processedChunks = k) := by
  have hmain :
      (∀ r ∈ processTranslationStates chunkSize extractRes tr convertOk
          outPath,
          (0 < r.totalChunks →
            r.progress = progressFloat r.processedChunks r.totalChunks) ∧
          r.processedChunks ≤ r.totalChunks) ∧
      List.Chain' (fun a b => a.processedChunks ≤ b.processedChunks)
        (processTranslationStates chunkSize extractRes tr convertOk
          outPath) := by
    cases extractRes with
    | none =>
      constructor
      · intro r hr
        simp only [processTranslationStates, processTranslationRun,
          List.scanl, List.mem_singleton] at hr
        subst hr
        simp [createdRecord]
      · simp [processTranslationStates, processTranslationRun]
    | some text =>
      have hupd :=
        processTranslationRun_updates chunkSize text tr convertOk outPath
      set chunks := fileProcessing.splitIntoChunks text chunkSize with hch
      set n := chunks.length with hn
      set Lp := translateChunksLoop tr n 0 chunks with hLp
      set r1 : Record :=
        { status := .processing, progress := 0, totalChunks := n,
          processedChunks := 0, translatedFilePath := none,
          errorMessage := none } with hr1
      have hinv := translateChunksLoop_invariants tr n chunks 0 r1
        rfl rfl rfl rfl rfl (fun _ => (progressFloat_zero n).symm)
        (by omega)
      have hstates :
          processTranslationStates chunkSize (some text) tr convertOk
            outPath =
          createdRecord ::
            List.scanl applyUpdate r1
              (Lp.1 ++ (if Lp.2 = none ∧ convertOk = true
                then [DbUpdate.setCompleted outPath] else [])) := by
        unfold processTranslationStates
        rw [hupd]
        rfl
      rw [hstates]
      by_cases hc : Lp.2 = none ∧ convertOk = true
      · obtain ⟨hnone, hok⟩ := hc
        have hfold := hinv.2.2 hnone
        set rEnd := List.foldl applyUpdate r1 Lp.1 with hrEnd
        have htail : (if Lp.2 = none ∧ convertOk = true
            then [DbUpdate.setCompleted outPath] else []) =
            [DbUpdate.setCompleted outPath] := by
          simp [hnone, hok]
        rw [htail, scanl_concat]
        set final := applyUpdate rEnd (DbUpdate.setCompleted outPath)
          with hfinal
        have hftot : final.totalChunks = n := by
          rw [hfinal]
          simpa [applyUpdate] using hfold.2.2.2.1
        have hfproc : final.processedChunks = n := by
          rw [hfinal]
          simp only [applyUpdate]
          rw [hfold.2.2.2.2.1]
          omega
        have hfprog : final.progress = 100 := by rw [hfinal]; rfl
        constructor
        · intro r hr
          rcases List.mem_cons.1 hr with hr | hr
          · subst hr; simp [createdRecord]
          · rcases List.mem_append.1 hr with hr | hr
            · have hx := hinv.1 r hr
              refine ⟨?_, ?_⟩
              · rw [hx.2.2.2.1]
                exact hx.2.2.2.2.2
              · rw [hx.2.2.2.1]
                exact hx.2.2.2.2.1
            · simp only [List.mem_singleton] at hr
              subst hr
              refine ⟨?_, ?_⟩
              · intro hpos
                rw [hftot] at hpos
                rw [hfprog, hftot, hfproc, progressFloat_self n hpos]
              · rw [hftot, hfproc]
        · rw [← scanl_concat, ← htail]
          rw [List.chain'_cons']
          constructor
          · intro y hy
            rw [head?_scanl] at hy
            simp only [Option.mem_def, Option.some.injEq] at hy
            subst hy
            simp [createdRecord]
          · rw [htail, scanl_concat]
            rw [List.chain'_append]
            refine ⟨hinv.2.1, List.chain'_singleton _, ?_⟩
            intro x hx y hy
            rw [getLast?_scanl] at hx
            simp only [Option.mem_def, Option.some.injEq] at hx
            simp only [List.head?_cons, Option.mem_def,
              Option.some.injEq] at hy
            subst hx
            subst hy
            simp [hfinal, applyUpdate]
      · have htail : (if Lp.2 = none ∧ convertOk = true
            then [DbUpdate.setCompleted outPath] else []) = [] := by
          simp only [if_neg hc]
        rw [htail, List.append_nil]
        constructor
        · intro r hr
          rcases List.mem_cons.1 hr with hr | hr
          · subst hr; simp [createdRecord]
          · have hx := hinv.1 r hr
            refine ⟨?_, ?_⟩
            · rw [hx.2.2.2.1]
              exact hx.2.2.2.2.2
            · rw [hx.2.2.2.1]
              exact hx.2.2.2.2.1
        · rw [List.chain'_cons']
          refine ⟨?_, hinv.2.1⟩
          intro y hy
          rw [head?_scanl] at hy
          simp only [Option.mem_def, Option.some.injEq] at hy
          subst hy
          simp [createdRecord]
  refine ⟨hmain.1, hmain.2, ?_, rfl, ?_⟩
  · exact head?_scanl ..
  · intro r k h
    exact ⟨by simp [updateProgress, h], by simp [updateProgress, h]⟩

end TranslationModel

/-! ## Claims about cancellation and failure handling -/

namespace TranslationModel

/-- C4: the claim that a cancellation observed mid-run stops further chunk
submission fails on the code — `processTranslation`'s loop never reads the
record.  Concrete run: text `"Aa. Bb."` with chunk size 4 gives 2 chunks;
the orchestrator issues all four writes regardless of the store's state, and
with a `cancelTranslation` request interleaved after the first chunk (where
the record is indeed `canceled`), the run still translates chunk 2, writes
the output file, ends with `processedChunks = 2` and overwrites the status
to `completed`. -/
theorem processTranslation_ignores_cancellation :
    (processTranslationRun 4 (some "Aa. Bb.".toList) (fun _ => some ['T'])
        true "p".toList).1 =
      [DbUpdate.setCounts 2 0, DbUpdate.setProgress 1 50,
       DbUpdate.setProgress 2 100, DbUpdate.setCompleted "p".toList] ∧
    (List.foldl applyOp createdRecord
        [StoreOp.update (DbUpdate.setCounts 2 0),
         StoreOp.update (DbUpdate.setProgress 1 50),
         StoreOp.cancelRequest]).status = Status.canceled ∧
    List.foldl applyOp createdRecord
        [StoreOp.update (DbUpdate.setCounts 2 0),
         StoreOp.update (DbUpdate.setProgress 1 50),
         StoreOp.cancelRequest,
         StoreOp.update (DbUpdate.setProgress 2 100),
         StoreOp.update (DbUpdate.setCompleted "p".toList)] =
      { status := Status.completed, progress := 100, totalChunks := 2,
        processedChunks := 2, translatedFilePath := some "p".toList,
        errorMessage := none } := by
  refine ⟨by decide, by decide, by decide⟩

/-- C5 counterexample: a job record already in the terminal status
`canceled` is moved out of it by the orchestrator's unconditional completion
write — in the run of `processTranslation_ignores_cancellation`'s scenario
the store reads `canceled` after the cancellation request and `completed`
after the orchestrator's final write. -/
theorem canceled_status_overwritten :
    (List.foldl applyOp createdRecord
        [StoreOp.update (DbUpdate.setCounts 2 0),
         StoreOp.update (DbUpdate.setProgress 1 50),
         StoreOp.cancelRequest]).status = Status.canceled ∧
    (applyOp (List.foldl applyOp createdRecord
        [StoreOp.update (DbUpdate.setCounts 2 0),
         StoreOp.update (DbUpdate.setProgress 1 50),
         StoreOp.cancelRequest])
      (StoreOp.update (DbUpdate.setCompleted "p".toList))).status =
      Status.completed := by
  refine ⟨by decide, by decide⟩

/-- C5 amended: the cancellation operation itself respects terminal states —
it never changes a record already `completed` or `canceled`, and on any
other record it only sets `status = canceled`, leaving every other field
unchanged.  (The orchestrator's own `setCompleted`/`setProgress` writes are
unconditional, which is what the counterexample exhibits.) -/
theorem cancelRequest_respects_terminal_states (r : Record) :
    ((r.status = Status.completed ∨ r.status = Status.canceled) →
      applyOp r StoreOp.cancelRequest = r) ∧
    (¬(r.status = Status.completed ∨ r.status = Status.canceled) →
      applyOp r StoreOp.cancelRequest =
        { r with status := Status.canceled }) := by
  constructor
  · intro h
    simp [applyOp, h]
  · intro h
    simp [applyOp, h]

/-- C6: the claim that a failing run marks the record `failed` with the
reason recorded fails on the code — `processTranslation`'s catch only logs
and rethrows, and `markFailed` is never called.  Concrete runs: a provider
error on the first chunk leaves every persisted state in status
`processing` with no `errorMessage` (and no output file); an extraction
error aborts before any write. -/
theorem failed_run_never_marks_failed :
    (processTranslationRun 4 (some "Aa. Bb.".toList) (fun _ => none) true
        "p".toList).2 = RunOutcome.translateFailed 0 ∧
    (∀ r ∈ processTranslationStates 4 (some "Aa. Bb.".toList)
        (fun _ => none) true "p".toList,
      r.status = Status.processing ∧ r.errorMessage = none ∧
        r.translatedFilePath = none) ∧
    processTranslationRun 4 none (fun _ => some ['T']) true "p".toList =
      ([], RunOutcome.extractFailed) := by
  refine ⟨by decide, by decide, by decide⟩

end TranslationModel

/-! ## Claims about the Job Queue retry policy -/

namespace queueService

/-- C7 counterexample: a job run that always throws the permanent error
`UnsupportedFormat` is still retried — under `defaultJobOptions` the queue
makes all 3 attempts (not 1) with backoff delays 1000 and 2000 ms before
giving up.  The retry decision never inspects the error class. -/
theorem permanent_error_is_retried :
    isPermanent QErr.unsupportedFormat = true ∧
    (runWithRetries defaultJobOptions
        (fun _ => (Except.error QErr.unsupportedFormat :
          Except QErr (List Char)))).attemptsMade = 3 ∧
    (runWithRetries defaultJobOptions
        (fun _ => (Except.error QErr.unsupportedFormat :
          Except QErr (List Char)))).delays = [1000, 2000] ∧
    (runWithRetries defaultJobOptions
        (fun _ => (Except.error QErr.unsupportedFormat :
          Except QErr (List Char)))).attemptsMade ≠ 1 := by
  refine ⟨rfl, rfl, rfl, by decide⟩

/-- C7 amended: the queue's retry policy is uniform across error classes —
any first-attempt error (permanent classes included) triggers a retry, at
most `attempts = 3` processor runs happen, a first-attempt success ends the
job after one run with no backoff, and a job failing on all three attempts
ends failed with exactly the exponential delays 1000 and 2000 ms, whatever
the error classes were. -/
theorem queue_retries_all_errors_uniformly
    (f : Nat → Except QErr (List Char)) :
    (runWithRetries defaultJobOptions f).attemptsMade ≤
      defaultJobOptions.attempts ∧
    (∀ a, f 0 = .ok a →
      runWithRetries defaultJobOptions f =
        { attemptsMade := 1, delays := [], result := .ok a }) ∧
    (∀ e, f 0 = .error e →
      2 ≤ (runWithRetries defaultJobOptions f).attemptsMade) ∧
    (∀ e₀ e₁ e₂, f 0 = .error e₀ → f 1 = .error e₁ → f 2 = .error e₂ →
      runWithRetries defaultJobOptions f =
        { attemptsMade := 3, delays := [1000, 2000],
          result := .error e₂ }) := by
  refine ⟨?_, ?_, ?_, ?_⟩
  · unfold runWithRetries defaultJobOptions retryGo
    cases h0 : f 0 with
    | ok a => simp
    | error e =>
      simp only []
      cases h1 : f 1 with
      | ok a => simp [retryGo, h1]
      | error e' => simp [retryGo, h1]
  · intro a h0
    unfold runWithRetries defaultJobOptions retryGo
    simp [h0]
  · intro e h0
    unfold runWithRetries defaultJobOptions retryGo
    simp only [h0]
    cases h1 : f 1 with
    | ok a => simp [retryGo, h1]
    | error e' => simp [retryGo, h1]
  · intro e₀ e₁ e₂ h0 h1 h2
    unfold runWithRetries defaultJobOptions retryGo
    simp [h0, retryGo, h1, h2]

/-- C7 witness: the amended statement at the concrete run failing with
`ProviderRateLimited`, `ProviderUnavailable`, `ProviderQuotaExceeded` on its
three attempts. -/
theorem queue_retries_all_errors_uniformly_witness :
    (runWithRetries defaultJobOptions
        (fun i => if i = 0 then
            (Except.error QErr.providerRateLimited : Except QErr (List Char))
          else if i = 1 then Except.error QErr.providerUnavailable
          else Except.error QErr.providerQuotaExceeded)).attemptsMade ≤
      defaultJobOptions.attempts :=
  (queue_retries_all_errors_uniformly
    (fun i => if i = 0 then
        (Except.error QErr.providerRateLimited : Except QErr (List Char))
      else if i = 1 then Except.error QErr.providerUnavailable
      else Except.error QErr.providerQuotaExceeded)).1

end queueService

/-! ## Claims about provider language-code mapping -/

theorem jsLookup_mem : ∀ (m : List (String × String)) (k v : String),
    jsLookup m k = some v → (k, v) ∈ m := by
  intro m
  induction m with
  | nil => intro k v h; simp [jsLookup] at h
  | cons p rest ih =>
    intro k v h
    obtain ⟨pk, pv⟩ := p
    simp only [jsLookup] at h
    by_cases hk : k = pk
    · rw [if_pos hk] at h
      simp only [Option.some.injEq] at h
      subst hk
      subst h
      exact List.mem_cons_self ..
    · rw [if_neg hk] at h
      exact List.mem_cons_of_mem _ (ih k v h)

/-- C8 counterexample: the code `zh-CN` is present in the Amazon adapter's
table with entry `zh`, yet `amazonService.mapLanguageCode` returns `zh-cn` —
neither the table's entry nor the code unchanged-up-to-case-folding of a
missing code: the lookup key is lowercased, so the mixed-case table keys are
never matched. -/
theorem amazon_mapLanguageCode_misses_table_entry :
    ("zh-CN", "zh") ∈ amazonService.languageMap ∧
    amazonService.mapLanguageCode "zh-CN" = "zh-cn" ∧
    "zh-cn" ≠ "zh" := by
  refine ⟨by decide, by decide, by decide⟩

/-- C8 amended: per adapter — Microsoft: table-present codes return the
table's entry and unmapped codes pass through unchanged; DeepL: table-present
codes return the entry and unmapped codes are uppercased; Amazon: the lookup
is performed on the lowercased input, so a code returns a table entry exactly
when its lowercased form is a table key, and otherwise the lowercased code —
in particular the mixed-case table keys `zh-CN` and `zh-TW` are unreachable
(`zh-CN ↦ zh-cn`, `zh-TW ↦ zh-tw`, not their table entries). -/
theorem mapLanguageCode_table_behavior (code : String) :
    (∀ v, jsLookup microsoftService.languageMap code = some v →
      microsoftService.mapLanguageCode code = v) ∧
    (jsLookup microsoftService.languageMap code = none →
      microsoftService.mapLanguageCode code = code) ∧
    (∀ v, jsLookup deeplService.languageMap code = some v →
      deeplService.mapLanguageCode code = v) ∧
    (jsLookup deeplService.languageMap code = none →
      deeplService.mapLanguageCode code = jsToUpper code) ∧
    (∀ v, jsLookup amazonService.languageMap (jsToLower code) = some v →
      amazonService.mapLanguageCode code = v) ∧
    (jsLookup amazonService.languageMap (jsToLower code) = none →
      amazonService.mapLanguageCode code = jsToLower code) ∧
    amazonService.mapLanguageCode "zh-CN" = "zh-cn" ∧
    amazonService.mapLanguageCode "zh-TW" = "zh-tw" := by
  refine ⟨?_, ?_, ?_, ?_, ?_, ?_, by decide, by decide⟩
  · intro v h
    have hv : v ≠ "" := by
      intro hv
      subst hv
      have hmem := jsLookup_mem _ _ _ h
      have hne : ∀ p ∈ microsoftService.languageMap, p.2 ≠ "" := by decide
      exact hne _ hmem rfl
    simp [microsoftService.mapLanguageCode, jsOr, h, hv]
  · intro h
    simp [microsoftService.mapLanguageCode, jsOr, h]
  · intro v h
    have hv : v ≠ "" := by
      intro hv
      subst hv
      have hmem := jsLookup_mem _ _ _ h
      have hne : ∀ p ∈ deeplService.languageMap, p.2 ≠ "" := by decide
      exact hne _ hmem rfl
    simp [deeplService.mapLanguageCode, jsOr, h, hv]
  · intro h
    simp [deeplService.mapLanguageCode, jsOr, h]
  · intro v h
    have hv : v ≠ "" := by
      intro hv
      subst hv
      have hmem := jsLookup_mem _ _ _ h
      have hne : ∀ p ∈ amazonService.languageMap, p.2 ≠ "" := by decide
      exact hne _ hmem rfl
    simp [amazonService.mapLanguageCode, jsOr, h, hv]
  · intro h
    simp [amazonService.mapLanguageCode, jsOr, h]

/-- C8 witness: the amended statement evaluated at the code `no`, which the
Microsoft table maps to `nb`. -/
theorem mapLanguageCode_table_behavior_witness :
    microsoftService.mapLanguageCode "no" = "nb" :=
  (mapLanguageCode_table_behavior "no").1 "nb" (by decide)

/-! ## Claim about the offline provider's provisioning -/

namespace argosService

/-- C9: on a language pair reported unavailable, `argosService.translate`
performs exactly one provisioning attempt (`downloadLanguagePair`) followed —
only if provisioning succeeded — by exactly one translation attempt, in that
order; a provisioning failure propagates with no translation attempt, a
translation failure propagates, and in every case at most one provisioning
and at most one translation attempt happen within the invocation. -/
theorem argos_single_provision_then_single_translate
    (pairAvailable downloadOk : Bool) (execResult : Option (List Char)) :
    (translate pairAvailable downloadOk execResult).1.count
        Step.downloadPair ≤ 1 ∧
    (translate pairAvailable downloadOk execResult).1.count
        Step.runTranslate ≤ 1 ∧
    (pairAvailable = false → downloadOk = true →
      (translate pairAvailable downloadOk execResult).1 =
        [Step.checkAvailability, Step.downloadPair, Step.runTranslate]) ∧
    (pairAvailable = false → downloadOk = false →
      (translate pairAvailable downloadOk execResult).1 =
        [Step.checkAvailability, Step.downloadPair] ∧
      (translate pairAvailable downloadOk execResult).2 =
        Except.error ArgosErr.downloadFailed) ∧
    (pairAvailable = true →
      (translate pairAvailable downloadOk execResult).1.count
        Step.downloadPair = 0) ∧
    (execResult = none → ∀ t,
      (translate pairAvailable downloadOk execResult).2 ≠ Except.ok t) := by
  cases pairAvailable <;> cases downloadOk <;> cases execResult <;>
    simp [translate, execOutcome]

/-- C9 witness: the theorem's unavailable-pair consequences at a concrete
successful provisioning and translation. -/
theorem argos_single_provision_then_single_translate_witness :
    (translate false true (some ['T'])).1 =
      [Step.checkAvailability, Step.downloadPair, Step.runTranslate] :=
  (argos_single_provision_then_single_translate false true
    (some ['T'])).2.2.1 rfl rfl

end argosService
